import Mathlib

/-!
# Verification of senaite.queue producer and dispatch logic

Shallow embedding of `src/senaite/queue/__init__.py` and
`src/senaite/queue/monkeys/content/worksheet.py`, together with
spec-modelled definitions for the queue-engine components (task store /
dedup index, chunker, executor) whose code is outside the excerpt.

Python dicts are modelled as association lists (`List (String × β)`,
first match wins); a failed subscript (`KeyError`) is `Option.none`.
-/

namespace SenaiteQueue

/-! ## `senaite.queue.__init__` -/

/-- An abstract queue dispatcher utility.  `zope.component.queryUtility`
returns the registered `IQueueDispatcher` utility or `None`; the
registration state is modelled as an `Option` passed in explicitly. -/
structure QueueDispatcher where
  /-- opaque identity of the registered utility -/
  uid : Nat
  deriving DecidableEq, Repr

/-- `queryUtility(IQueueDispatcher)`: yields the registered utility when a
queue backend is configured and reachable, `None` otherwise. -/
def queryUtility (registered : Option QueueDispatcher) : Option QueueDispatcher :=
  registered

/-- `get_queue_utility()`: returns the queue utility. -/
def get_queue_utility (registered : Option QueueDispatcher) : Option QueueDispatcher :=
  queryUtility registered

/-- `is_queue_enabled()`: whether the queue is active for the current
instance, i.e. `get_queue_utility() is not None`. -/
def is_queue_enabled (registered : Option QueueDispatcher) : Bool :=
  (get_queue_utility registered).isSome

/-- `get_chunk_size(task_name)`: exact-name lookup in `CHUNK_SIZES`, else
the `"default"` entry.  The `CHUNK_SIZES` dict itself lives in
`senaite.queue.config` (outside the excerpt), so it is a parameter; a
missing `"default"` key would raise `KeyError`, modelled as `none`. -/
def get_chunk_size (chunk_sizes : List (String × Nat)) (task_name : String) : Option Nat :=
  if (List.lookup task_name chunk_sizes).isSome then
    List.lookup task_name chunk_sizes
  else
    List.lookup "default" chunk_sizes

/-- `get_action_task_name(action)`. -/
def get_action_task_name (action : String) : String :=
  "task_action_" ++ action

/-! ## `senaite.queue.monkeys.content.worksheet`

The catalog brain and its object are collapsed into one record
(`_api.get_object` is the identity in the model); the catalog query
result is the input list.  Slot positions are `Nat` with `0` playing the
role of Python's falsy `None`/`0` (the code tests slots with `if not
slot:`). -/

/-- A routine analysis as seen by the worksheet code: the query-result
brain together with the predicates the code evaluates on it. -/
structure Analysis where
  /-- object identity -/
  uid : Nat
  /-- `api.is_queued(brain)`: already claimed by an in-flight task -/
  queued : Bool
  /-- `brain.getRequestID` -/
  requestID : String
  /-- `obj.isInstrumentAllowed(instrument)` -/
  instrumentAllowed : Bool
  /-- `obj.isMethodAllowed(method)` -/
  methodAllowed : Bool
  /-- `IRequestAnalysis.providedBy(obj)` -/
  providesIRequestAnalysis : Bool
  deriving DecidableEq, Repr

/-- The worksheet (`self`) inputs the routine reads. -/
structure Worksheet where
  /-- `self.resolve_available_slots(wst, 'a')` (before the reverse sort) -/
  availableSlots : List Nat
  /-- `len(get_routine_analyses(self))` -/
  numRoutineAnalyses : Nat
  /-- `self.get_slot_position(obj.getRequest())`, keyed by request id;
  `0` means no prefixed slot (falsy) -/
  slotPosition : String → Nat

/-- The worksheet template inputs: whether `wst.getRawInstrument()` and
`wst.getRawRestrictToMethod()` are truthy. -/
structure WorksheetTemplate where
  hasInstrument : Bool
  hasMethod : Bool
  deriving DecidableEq, Repr

/-- Observable effects of the worksheet code: direct synchronous
`self.addAnalysis(obj[, slot])` calls and the final
`api.queue_assign_analyses(self, to_queue, ...)` submission. -/
inductive WSAction where
  | addAnalysis (a : Analysis) (slot : Option Nat)
  | queueAssign (items : List Analysis)
  deriving DecidableEq, Repr

/-- Python `d[k] = v` on a dict modelled as an association list:
overwrite in place, else append. -/
def dictSet (d : List (String × β)) (k : String) (v : β) : List (String × β) :=
  match d with
  | [] => [(k, v)]
  | (k2, v2) :: rest => if k2 = k then (k2, v) :: rest else (k2, v2) :: dictSet rest k v

/-- `if k not in d: d[k] = list()` followed by `d[k].append(a)`. -/
def dictAppend (d : List (String × List α)) (k : String) (a : α) : List (String × List α) :=
  match d with
  | [] => [(k, [a])]
  | (k2, l) :: rest => if k2 = k then (k2, l ++ [a]) :: rest else (k2, l) :: dictAppend rest k a

/-- Python `l.pop()`: remove and return the last element.  Every `pop()`
in the source runs on a list known nonempty, so the `0` default is
unreachable there. -/
def listPop (l : List Nat) : Nat × List Nat :=
  (l.getLast?.getD 0, l.dropLast)

/-- `sort(reverse=True)` on a list of slots. -/
def sortDescNat (l : List Nat) : List Nat :=
  l.mergeSort (fun a b => decide (b ≤ a))

/-- `sorted(...)` on analysis-request ids. -/
def sortAscStr (l : List String) : List String :=
  l.mergeSort (fun a b => decide (a ≤ b))

/-- Mutable state of the brain loop of
`_apply_worksheet_template_routine_analyses`. -/
structure LoopState where
  availableSlots : List Nat
  arAnalyses : List (String × List Analysis)
  arSlots : List (String × Nat)
  arFixedSlots : List (String × Nat)
  deriving Repr

/-- The `for brain in analyses:` loop: groups non-skipped analyses by
analysis request and records slot assignments.  Returning the state
without consuming the rest models `break`. -/
def routineLoop (ws : Worksheet) (instrument method : Bool) :
    List Analysis → LoopState → LoopState
  | [], st => st
  | brain :: rest, st =>
    if brain.queued then
      -- Discard analyses that are in a processing queue
      routineLoop ws instrument method rest st
    else
      let arid := brain.requestID
      if instrument && !brain.instrumentAllowed then
        routineLoop ws instrument method rest st
      else if method && !brain.methodAllowed then
        routineLoop ws instrument method rest st
      else
        -- slot = ar_slots.get(arid, None); a 0 slot is falsy like None
        let slot0 := (List.lookup arid st.arSlots).getD 0
        if slot0 ≠ 0 then
          routineLoop ws instrument method rest
            { st with arSlots := dictSet st.arSlots arid slot0,
                      arAnalyses := dictAppend st.arAnalyses arid brain }
        else
          if st.availableSlots.isEmpty && ws.numRoutineAnalyses == 0 then
            st  -- break
          else if ws.numRoutineAnalyses == 0 then
            let (slot, remaining) := listPop st.availableSlots
            routineLoop ws instrument method rest
              { st with availableSlots := remaining,
                        arSlots := dictSet st.arSlots arid slot,
                        arAnalyses := dictAppend st.arAnalyses arid brain }
          else
            let slot := ws.slotPosition arid
            if slot ≠ 0 then
              -- Prefixed slot position
              routineLoop ws instrument method rest
                { st with arFixedSlots := dictSet st.arFixedSlots arid slot,
                          arAnalyses := dictAppend st.arAnalyses arid brain }
            else if st.availableSlots.isEmpty then
              routineLoop ws instrument method rest st
            else
              let (slot2, remaining) := listPop st.availableSlots
              routineLoop ws instrument method rest
                { st with availableSlots := remaining,
                          arSlots := dictSet st.arSlots arid slot2,
                          arAnalyses := dictAppend st.arAnalyses arid brain }

/-- The inner `for ar_an in ar_ans:` dispatch: reference analyses and
(queue disabled) request analyses are added directly with the group's
slot; the rest accumulate into `to_queue`. -/
def dispatchGroup (queue_enabled : Bool) (slot : Nat) :
    List Analysis → List WSAction × List Analysis
  | [] => ([], [])
  | a :: rest =>
    let r := dispatchGroup queue_enabled slot rest
    if !a.providesIRequestAnalysis then
      (WSAction.addAnalysis a (some slot) :: r.1, r.2)
    else if !queue_enabled then
      (WSAction.addAnalysis a (some slot) :: r.1, r.2)
    else
      (r.1, a :: r.2)

/-- The `for ar_id in sorted_ar_ids:` loop: resolve the group's slot
(prefixed, else pop from the sorted slot stack) and dispatch the group. -/
def assignLoop (queue_enabled : Bool) (arAnalyses : List (String × List Analysis))
    (arFixedSlots : List (String × Nat)) :
    List String → List Nat → List WSAction × List Analysis
  | [], _ => ([], [])
  | ar_id :: rest, slots =>
    let fixed := (List.lookup ar_id arFixedSlots).getD 0
    let sp := if fixed ≠ 0 then (fixed, slots) else listPop slots
    let group := (List.lookup ar_id arAnalyses).getD []
    let d := dispatchGroup queue_enabled sp.1 group
    let r := assignLoop queue_enabled arAnalyses arFixedSlots rest sp.2
    (d.1 ++ r.1, d.2 ++ r.2)

/-- `_apply_worksheet_template_routine_analyses(self, wst)`:
`queue_enabled` is the value of
`api.is_queue_enabled("task_assign_analyses")`; `analyses` is the
catalog query result; the returned list is the sequence of observable
effects. -/
def apply_worksheet_template_routine_analyses (queue_enabled : Bool) (ws : Worksheet)
    (wst : WorksheetTemplate) (analyses : List Analysis) : List WSAction :=
  if analyses.isEmpty then []
  else
    let st0 : LoopState := ⟨sortDescNat ws.availableSlots, [], [], []⟩
    let st := routineLoop ws wst.hasInstrument wst.hasMethod analyses st0
    let sorted_ar_ids := sortAscStr (st.arAnalyses.map Prod.fst)
    let slots := sortDescNat (st.arSlots.map Prod.snd)
    let r := assignLoop queue_enabled st.arAnalyses st.arFixedSlots sorted_ar_ids slots
    r.1 ++ (if r.2.isEmpty then [] else [WSAction.queueAssign r.2])

/-- The `for num, analysis in enumerate(analyses):` loop of
`addAnalyses`. -/
def addAnalysesLoop (queue_enabled : Bool) :
    List Analysis → List WSAction × List Analysis
  | [] => ([], [])
  | analysis :: rest =>
    let r := addAnalysesLoop queue_enabled rest
    if !queue_enabled then
      (WSAction.addAnalysis analysis none :: r.1, r.2)
    else if !analysis.providesIRequestAnalysis then
      (WSAction.addAnalysis analysis none :: r.1, r.2)
    else
      (r.1, analysis :: r.2)

/-- `addAnalyses(self, analyses)`: adds a collection of analyses to the
worksheet at once; `queue_enabled` is
`api.is_queue_enabled("task_assign_analyses")`. -/
def addAnalyses (queue_enabled : Bool) (analyses : List Analysis) : List WSAction :=
  let r := addAnalysesLoop queue_enabled analyses
  r.1 ++ (if r.2.isEmpty then [] else [WSAction.queueAssign r.2])

/-- All analyses handed to `queue_assign_analyses` by a trace of
actions. -/
def queuedItems (acts : List WSAction) : List Analysis :=
  acts.foldr (fun act acc => match act with
    | WSAction.queueAssign l => l ++ acc
    | _ => acc) []

/-- Whether an action involves a given analysis. -/
def mentions (act : WSAction) (a : Analysis) : Bool :=
  match act with
  | WSAction.addAnalysis b _ => a == b
  | WSAction.queueAssign l => l.contains a

/-- Whether an action is a direct synchronous `self.addAnalysis` call. -/
def isDirectAdd (act : WSAction) : Bool :=
  match act with
  | WSAction.addAnalysis _ _ => true
  | WSAction.queueAssign _ => false

/-! ## Queue engine (task store, dedup index, chunker, executor)

These components live outside the excerpt; they are modelled from the
spec (§3, §4, §7). -/

/-- Modelled from the spec: task `status` is one of `queued`, `running`,
`done`, `failed`, `retry_pending`. -/
inductive TaskStatus where
  | queued | running | done | failed | retryPending
  deriving DecidableEq, Repr

/-- A task is *active* when its status is in
`{queued, running, retry_pending}`. -/
def TaskStatus.isActive : TaskStatus → Bool
  | TaskStatus.queued => true
  | TaskStatus.running => true
  | TaskStatus.retryPending => true
  | _ => false

/-- Modelled from the spec: a Task record of the Task Store (`id`,
`name`, `target_ref`, `payload` of opaque item references, `status`). -/
structure Task where
  id : Nat
  name : String
  target : String
  payload : List Nat
  status : TaskStatus
  deriving DecidableEq, Repr

/-- Modelled from the spec: the Task Store with its fresh-id counter. -/
structure QueueState where
  tasks : List Task
  nextId : Nat
  deriving DecidableEq, Repr

/-- Number of active tasks referencing a target (the Dedup Index view). -/
def activeCount (s : QueueState) (target : String) : Nat :=
  (s.tasks.filter (fun t => t.status.isActive && t.target == target)).length

/-- The dedup invariant: at most one active task per target. -/
def dedupInvariant (s : QueueState) : Prop :=
  ∀ target : String, activeCount s target ≤ 1

/-- `is_queued(target_ref)`: whether some active task references the
target. -/
def findActiveTask (s : QueueState) (target : String) : Option Task :=
  s.tasks.find? (fun t => t.status.isActive && t.target == target)

/-- Outcome of a `submit` call: a fresh task, a merge into the lock
holder's payload, or a synchronous `DuplicateTargetError`. -/
inductive SubmitResult where
  | created (tid : Nat)
  | merged (tid : Nat)
  | duplicateTargetError
  deriving DecidableEq, Repr

/-- Modelled from the spec: `submit(name, target_ref, items)` of the
Dispatcher.  When the Dedup Index holds an active lock for the target,
the policy either merges the items into the lock holder's payload or
rejects with `DuplicateTargetError`; otherwise a fresh `queued` task is
appended. -/
def submit (mergePolicy : Bool) (s : QueueState) (name target : String)
    (items : List Nat) : SubmitResult × QueueState :=
  match findActiveTask s target with
  | some t =>
    if mergePolicy then
      (SubmitResult.merged t.id,
        { s with tasks := s.tasks.map (fun u =>
            if u.id == t.id then { u with payload := u.payload ++ items } else u) })
    else
      (SubmitResult.duplicateTargetError, s)
  | none =>
    (SubmitResult.created s.nextId,
      { tasks := s.tasks ++ [⟨s.nextId, name, target, items, TaskStatus.queued⟩],
        nextId := s.nextId + 1 })

/-- Modelled from the spec: the Lifecycle Controller's legal status
transitions (`queued → running`, `running → done/retry_pending/failed`,
`retry_pending → running/failed`). -/
def legalTransition : TaskStatus → TaskStatus → Bool
  | TaskStatus.queued, TaskStatus.running => true
  | TaskStatus.running, TaskStatus.done => true
  | TaskStatus.running, TaskStatus.retryPending => true
  | TaskStatus.running, TaskStatus.failed => true
  | TaskStatus.retryPending, TaskStatus.running => true
  | TaskStatus.retryPending, TaskStatus.failed => true
  | _, _ => false

/-- Modelled from the spec: apply a legal status transition to the task
with the given id (no-op when the transition is illegal). -/
def applyTransition (s : QueueState) (tid : Nat) (dst : TaskStatus) : QueueState :=
  { s with tasks := s.tasks.map (fun t =>
      if t.id == tid && legalTransition t.status dst then { t with status := dst } else t) }

/-- Modelled from the spec: the Chunker's `split(items, chunk_size)`:
bounded chunks in original order (a non-positive chunk size is rejected
with an empty result; the spec requires a positive chunk size). -/
def split : List α → Nat → List (List α)
  | [], _ => []
  | _ :: _, 0 => []
  | a :: l, n + 1 => (a :: l).take (n + 1) :: split ((a :: l).drop (n + 1)) (n + 1)
termination_by l _ => l.length
decreasing_by
  simp only [List.drop_succ_cons, List.length_cons, List.length_drop]
  omega

/-- Modelled from the spec: the result the Executor reports for one
chunk. -/
structure ExecutionResult where
  applied_count : Nat
  remaining : List Nat
  error : Option String
  deriving DecidableEq, Repr

/-- A registered handler: on the target and chunk it either applies some
items (reporting how many applied and which remain) or faults. -/
def Handler : Type :=
  String → List Nat → Except String (Nat × List Nat)

/-- Modelled from the spec: `Executor.run(task, chunk)` — executes the
registered handler and always returns an `ExecutionResult`, converting a
handler fault into the `error` field instead of raising. -/
def executorRun (handler : Handler) (task : Task) (chunk : List Nat) : ExecutionResult :=
  match handler task.target chunk with
  | Except.ok r => { applied_count := r.1, remaining := r.2, error := none }
  | Except.error e => { applied_count := 0, remaining := chunk, error := some e }

/-! ## Sample data for concrete evaluations -/

/-- A reference analysis (control/blank): no `IRequestAnalysis`. -/
def anRef : Analysis := ⟨2, false, "AR-2", true, true, false⟩

/-- A routine request analysis. -/
def anReq : Analysis := ⟨1, false, "AR-1", true, true, true⟩

/-- A request analysis already claimed by an in-flight task. -/
def anInQ : Analysis := ⟨3, true, "AR-3", true, true, true⟩

/-- An empty worksheet with two available slots and no prefixed slots. -/
def wsSample : Worksheet := ⟨[4, 7], 0, fun _ => 0⟩

/-- A template with no instrument and no method restriction. -/
def wstSample : WorksheetTemplate := ⟨false, false⟩

/-- A sample queued task. -/
def taskSample : Task := ⟨0, "task_assign_analyses", "WS-1", [1, 2], TaskStatus.queued⟩

/-- A handler that always faults. -/
def faultyHandler : Handler := fun _ _ => Except.error "boom"

/-! ## Theorems -/

/-- A successful association-list lookup locates a pair of the list. -/
theorem lookup_mem {β : Type} : ∀ {l : List (String × β)} {k : String} {v : β},
    List.lookup k l = some v → (k, v) ∈ l := by
  intro l
  induction l with
  | nil => intro k v h; simp [List.lookup] at h
  | cons p rest ih =>
    intro k v h
    obtain ⟨k2, v2⟩ := p
    by_cases hk : k = k2
    · subst hk
      simp [List.lookup] at h
      exact h ▸ List.mem_cons_self _ _
    · have hb : (k == k2) = false := beq_false_of_ne hk
      simp [List.lookup, hb] at h
      exact List.mem_cons_of_mem _ (ih h)

/-- C3: `get_chunk_size` returns the exact-name entry of the
`CHUNK_SIZES` mapping when one exists, else the `"default"` entry. -/
theorem get_chunk_size_resolution (m : List (String × Nat)) (name : String) (v d : Nat)
    (hd : List.lookup "default" m = some d) :
    (List.lookup name m = some v → get_chunk_size m name = some v) ∧
    (List.lookup name m = none → get_chunk_size m name = some d) := by
  refine ⟨fun h => ?_, fun h => ?_⟩
  · simp [get_chunk_size, h]
  · simp [get_chunk_size, h, hd]

/-- Witness for C3 at a concrete configuration. -/
theorem get_chunk_size_resolution_witness :
    get_chunk_size [("default", 10), ("task_assign_analyses", 5)] "task_assign_analyses"
        = some 5 ∧
    get_chunk_size [("default", 10), ("task_assign_analyses", 5)] "task_action_submit"
        = some 10 :=
  ⟨(get_chunk_size_resolution _ _ 5 10 (by decide)).1 (by decide),
   (get_chunk_size_resolution _ _ 0 10 (by decide)).2 (by decide)⟩

/-- C8: when the `CHUNK_SIZES` mapping contains the key `"default"`,
`get_chunk_size` never hits its `KeyError` branch. -/
theorem get_chunk_size_total (m : List (String × Nat)) (name : String)
    (hd : (List.lookup "default" m).isSome = true) :
    (get_chunk_size m name).isSome = true := by
  unfold get_chunk_size
  split
  · assumption
  · exact hd

/-- Witness for C8 at a concrete configuration. -/
theorem get_chunk_size_total_witness :
    (get_chunk_size [("default", 10)] "unknown_task").isSome = true :=
  get_chunk_size_total _ _ (by decide)

/-- C10: an empty catalog result makes the worksheet-template routine
return immediately: no `addAnalysis` call, no queue submission. -/
theorem routine_empty_result_noop (qe : Bool) (ws : Worksheet) (wst : WorksheetTemplate) :
    apply_worksheet_template_routine_analyses qe ws wst [] = [] :=
  rfl

/-- Every chunk of `split` is a `take`, hence bounded. -/
theorem split_chunk_le {α : Type} : ∀ (items : List α) (n : Nat),
    ∀ c ∈ split items n, c.length ≤ n
  | [], _ => by simp [split]
  | _ :: _, 0 => by simp [split]
  | a :: l, n + 1 => by
    intro c hc
    simp only [split, List.mem_cons] at hc
    rcases hc with rfl | hc
    · simp
    · exact split_chunk_le _ (n + 1) c hc
termination_by items _ => items.length
decreasing_by
  simp only [List.drop_succ_cons, List.length_cons, List.length_drop]
  omega

/-- Concatenating the chunks of `split` restores the original list. -/
theorem split_join {α : Type} : ∀ (items : List α) (n : Nat), 0 < n →
    (split items n).flatten = items
  | [], _, _ => by simp [split]
  | _ :: _, 0, hn => absurd hn (by omega)
  | a :: l, n + 1, hn => by
    simp only [split, List.flatten_cons]
    rw [split_join (List.drop (n + 1) (a :: l)) (n + 1) hn]
    exact List.take_append_drop _ _
termination_by items _ _ => items.length
decreasing_by
  simp only [List.drop_succ_cons, List.length_cons, List.length_drop]
  omega

/-- C6: for a positive chunk size, `split` yields chunks bounded by the
chunk size whose in-order concatenation is exactly the original
sequence. -/
theorem split_bounded_roundtrip {α : Type} (items : List α) (chunk_size : Nat)
    (h : 0 < chunk_size) :
    (split items chunk_size).all (fun c => decide (c.length ≤ chunk_size)) = true ∧
    (split items chunk_size).flatten = items := by
  refine ⟨?_, split_join items chunk_size h⟩
  rw [List.all_eq_true]
  intro c hc
  exact decide_eq_true (split_chunk_le items chunk_size c hc)

/-- Witness for C6 at a concrete list and chunk size. -/
theorem split_bounded_roundtrip_witness :
    (split [1, 2, 3, 4, 5] 2).all (fun c => decide (c.length ≤ 2)) = true ∧
    (split [1, 2, 3, 4, 5] 2).flatten = [1, 2, 3, 4, 5] :=
  split_bounded_roundtrip [1, 2, 3, 4, 5] 2 (by decide)

/-- C7: the Executor's `run` always returns an `ExecutionResult`; a
handler fault is converted into the `error` field, not raised. -/
theorem executorRun_no_raise (handler : Handler) (task : Task) (chunk : List Nat)
    (e : String) (hfault : handler task.target chunk = Except.error e) :
    executorRun handler task chunk
      = { applied_count := 0, remaining := chunk, error := some e } := by
  simp [executorRun, hfault]

/-- Witness for C7 with a concrete faulting handler. -/
theorem executorRun_no_raise_witness :
    executorRun faultyHandler taskSample [1, 2]
      = { applied_count := 0, remaining := [1, 2], error := some "boom" } :=
  executorRun_no_raise faultyHandler taskSample [1, 2] "boom" rfl

/-- With the queue disabled, the `addAnalyses` loop adds everything
directly and accumulates nothing for the queue. -/
theorem addAnalysesLoop_disabled (xs : List Analysis) :
    addAnalysesLoop false xs
      = (xs.map (fun a => WSAction.addAnalysis a none), []) := by
  induction xs with
  | nil => rfl
  | cons a rest ih => simp [addAnalysesLoop, ih]

/-- With the queue disabled, `addAnalyses` is the direct synchronous
path on every analysis. -/
theorem addAnalyses_disabled (xs : List Analysis) :
    addAnalyses false xs = xs.map (fun a => WSAction.addAnalysis a none) := by
  simp [addAnalyses, addAnalysesLoop_disabled]

/-- With the queue disabled, a group dispatch adds every group member
directly at the group's slot and queues nothing. -/
theorem dispatchGroup_disabled (slot : Nat) (g : List Analysis) :
    dispatchGroup false slot g
      = (g.map (fun a => WSAction.addAnalysis a (some slot)), []) := by
  induction g with
  | nil => rfl
  | cons a rest ih => simp [dispatchGroup, ih]

/-- With the queue disabled, the assignment loop queues nothing and
emits only direct `addAnalysis` actions. -/
theorem assignLoop_disabled (arA : List (String × List Analysis))
    (arF : List (String × Nat)) :
    ∀ (ids : List String) (slots : List Nat),
      (assignLoop false arA arF ids slots).2 = [] ∧
      (assignLoop false arA arF ids slots).1.all isDirectAdd = true := by
  intro ids
  induction ids with
  | nil => intro slots; exact ⟨rfl, rfl⟩
  | cons i rest ih =>
    intro slots
    have h := ih (if (List.lookup i arF).getD 0 ≠ 0 then slots else (listPop slots).2)
    constructor
    · simp [assignLoop, dispatchGroup_disabled]
      split <;> simp_all
    · simp [assignLoop, dispatchGroup_disabled, List.all_append]
      constructor
      · intro a _; rfl
      · split <;> simp_all



/-- With the queue disabled, the assembled routine output is direct
`addAnalysis` actions only. -/
theorem routineOutput_disabled (arA : List (String × List Analysis))
    (arF : List (String × Nat)) (ids : List String) (slots : List Nat) :
    ((assignLoop false arA arF ids slots).1 ++
      (if (assignLoop false arA arF ids slots).2.isEmpty then []
       else [WSAction.queueAssign (assignLoop false arA arF ids slots).2])).all
      isDirectAdd = true := by
  obtain ⟨h2, h1⟩ := assignLoop_disabled arA arF ids slots
  simp [h2, h1, List.all_append]

/-- With the queue disabled, the worksheet-template routine emits only
direct `addAnalysis` actions. -/
theorem routine_disabled (ws : Worksheet) (wst : WorksheetTemplate) (ys : List Analysis) :
    (apply_worksheet_template_routine_analyses false ws wst ys).all isDirectAdd = true := by
  unfold apply_worksheet_template_routine_analyses
  split
  · rfl
  · exact routineOutput_disabled _ _ _ _

/-- C2: when `is_queue_enabled` is false, both producer entry points
execute every analysis immediately via the direct `addAnalysis` path
and `queue_assign_analyses` is never invoked. -/
theorem queue_disabled_fallback (qe : Bool) (hq : qe = false)
    (ws : Worksheet) (wst : WorksheetTemplate) (xs ys : List Analysis) :
    addAnalyses qe xs = xs.map (fun a => WSAction.addAnalysis a none) ∧
    (apply_worksheet_template_routine_analyses qe ws wst ys).all isDirectAdd = true := by
  subst hq
  exact ⟨addAnalyses_disabled xs, routine_disabled ws wst ys⟩

/-- Witness for C2 at concrete inputs. -/
theorem queue_disabled_fallback_witness :
    addAnalyses false [anReq, anRef]
        = [anReq, anRef].map (fun a => WSAction.addAnalysis a none) ∧
    (apply_worksheet_template_routine_analyses false wsSample wstSample [anReq, anRef]).all
        isDirectAdd = true :=
  queue_disabled_fallback false rfl wsSample wstSample [anReq, anRef] [anReq, anRef]

/-- C4: `is_queue_enabled` is true iff the utility lookup yields a
configured, reachable backend; when it is false the producer entry
points fall back to synchronous execution with no queue submission. -/
theorem is_queue_enabled_iff_sync_fallback (registered : Option QueueDispatcher)
    (ws : Worksheet) (wst : WorksheetTemplate) (xs ys : List Analysis) :
    (is_queue_enabled registered = true ↔ (queryUtility registered).isSome = true) ∧
    (is_queue_enabled registered = false →
      addAnalyses (is_queue_enabled registered) xs
          = xs.map (fun a => WSAction.addAnalysis a none) ∧
      (apply_worksheet_template_routine_analyses (is_queue_enabled registered) ws wst ys).all
          isDirectAdd = true) := by
  refine ⟨Iff.rfl, fun h => ?_⟩
  rw [h]
  exact ⟨addAnalyses_disabled xs, routine_disabled ws wst ys⟩

/-- Witness for C4 with no utility registered. -/
theorem is_queue_enabled_iff_sync_fallback_witness :
    (is_queue_enabled (none : Option QueueDispatcher) = true ↔
        (queryUtility (none : Option QueueDispatcher)).isSome = true) ∧
    (addAnalyses (is_queue_enabled (none : Option QueueDispatcher)) [anReq]
        = [anReq].map (fun a => WSAction.addAnalysis a none) ∧
      (apply_worksheet_template_routine_analyses
          (is_queue_enabled (none : Option QueueDispatcher))
          wsSample wstSample [anReq]).all isDirectAdd = true) := by
  have h := is_queue_enabled_iff_sync_fallback none wsSample wstSample [anReq] [anReq]
  exact ⟨h.1, h.2 rfl⟩


/-- All analyses collected in the `ar_analyses` grouping. -/
def groupMembers (arA : List (String × List Analysis)) : List Analysis :=
  (arA.map Prod.snd).flatten

/-- Unfolding `groupMembers` over a leading dict entry. -/
theorem groupMembers_cons (p : String × List Analysis)
    (rest : List (String × List Analysis)) :
    groupMembers (p :: rest) = p.2 ++ groupMembers rest := by
  simp [groupMembers]

/-- `dictAppend` adds exactly one member to the grouping. -/
theorem mem_groupMembers_dictAppend (arA : List (String × List Analysis))
    (k : String) (b a : Analysis) :
    a ∈ groupMembers (dictAppend arA k b) ↔ a ∈ groupMembers arA ∨ a = b := by
  induction arA with
  | nil => simp [dictAppend, groupMembers]
  | cons p rest ih =>
    obtain ⟨k2, l⟩ := p
    by_cases hk : k2 = k
    · simp only [dictAppend, if_pos hk, groupMembers_cons, List.mem_append]
      simp
      tauto
    · simp only [dictAppend, if_neg hk, groupMembers_cons, List.mem_append]
      rw [ih]
      tauto

/-- Every analysis grouped by the brain loop either was grouped before
or is a non-queued member of the processed list. -/
theorem routineLoop_groupMembers (ws : Worksheet) (i m : Bool) :
    ∀ (l : List Analysis) (st : LoopState) (a : Analysis),
      a ∈ groupMembers (routineLoop ws i m l st).arAnalyses →
      a ∈ groupMembers st.arAnalyses ∨ (a ∈ l ∧ a.queued = false) := by
  intro l
  induction l with
  | nil => intro st a h; exact Or.inl h
  | cons brain rest ih =>
    intro st a h
    simp only [routineLoop, listPop] at h
    split at h
    · -- brain is queued: skipped
      rcases ih _ _ h with h1 | h2
      · exact Or.inl h1
      · exact Or.inr ⟨List.mem_cons_of_mem _ h2.1, h2.2⟩
    · rename_i hq
      have hq' : brain.queued = false := by simpa using hq
      split at h
      · -- instrument not allowed: skipped
        rcases ih _ _ h with h1 | h2
        · exact Or.inl h1
        · exact Or.inr ⟨List.mem_cons_of_mem _ h2.1, h2.2⟩
      · split at h
        · -- method not allowed: skipped
          rcases ih _ _ h with h1 | h2
          · exact Or.inl h1
          · exact Or.inr ⟨List.mem_cons_of_mem _ h2.1, h2.2⟩
        · split at h
          · -- truthy slot already recorded for this request
            rcases ih _ _ h with h1 | h2
            · rcases (mem_groupMembers_dictAppend _ _ _ _).1 h1 with h3 | rfl
              · exact Or.inl h3
              · exact Or.inr ⟨List.mem_cons_self _ _, hq'⟩
            · exact Or.inr ⟨List.mem_cons_of_mem _ h2.1, h2.2⟩
          · split at h
            · -- break: no slots left on an empty worksheet
              exact Or.inl h
            · split at h
              · -- empty worksheet: pop an available slot
                rcases ih _ _ h with h1 | h2
                · rcases (mem_groupMembers_dictAppend _ _ _ _).1 h1 with h3 | rfl
                  · exact Or.inl h3
                  · exact Or.inr ⟨List.mem_cons_self _ _, hq'⟩
                · exact Or.inr ⟨List.mem_cons_of_mem _ h2.1, h2.2⟩
              · split at h
                · -- prefixed slot position
                  rcases ih _ _ h with h1 | h2
                  · rcases (mem_groupMembers_dictAppend _ _ _ _).1 h1 with h3 | rfl
                    · exact Or.inl h3
                    · exact Or.inr ⟨List.mem_cons_self _ _, hq'⟩
                  · exact Or.inr ⟨List.mem_cons_of_mem _ h2.1, h2.2⟩
                · split at h
                  · -- no available slot for a new request: skipped
                    rcases ih _ _ h with h1 | h2
                    · exact Or.inl h1
                    · exact Or.inr ⟨List.mem_cons_of_mem _ h2.1, h2.2⟩
                  · -- pop an available slot
                    rcases ih _ _ h with h1 | h2
                    · rcases (mem_groupMembers_dictAppend _ _ _ _).1 h1 with h3 | rfl
                      · exact Or.inl h3
                      · exact Or.inr ⟨List.mem_cons_self _ _, hq'⟩
                    · exact Or.inr ⟨List.mem_cons_of_mem _ h2.1, h2.2⟩


/-- Every direct action a group dispatch emits adds a group member at
the group slot. -/
theorem dispatchGroup_fst_mem (qe : Bool) (slot : Nat) :
    ∀ (g : List Analysis) (act : WSAction), act ∈ (dispatchGroup qe slot g).1 →
      ∃ a ∈ g, act = WSAction.addAnalysis a (some slot) := by
  intro g
  induction g with
  | nil => intro act h; simp [dispatchGroup] at h
  | cons a rest ih =>
    intro act h
    simp only [dispatchGroup] at h
    split at h
    · rcases List.mem_cons.1 h with rfl | h2
      · exact ⟨a, List.mem_cons_self _ _, rfl⟩
      · obtain ⟨b, hb, rfl⟩ := ih act h2
        exact ⟨b, List.mem_cons_of_mem _ hb, rfl⟩
    · split at h
      · rcases List.mem_cons.1 h with rfl | h2
        · exact ⟨a, List.mem_cons_self _ _, rfl⟩
        · obtain ⟨b, hb, rfl⟩ := ih act h2
          exact ⟨b, List.mem_cons_of_mem _ hb, rfl⟩
      · obtain ⟨b, hb, rfl⟩ := ih act h
        exact ⟨b, List.mem_cons_of_mem _ hb, rfl⟩

/-- Everything a group dispatch routes to the queue is a group member
that provides `IRequestAnalysis`, and the queue was enabled. -/
theorem dispatchGroup_snd_mem (qe : Bool) (slot : Nat) :
    ∀ (g : List Analysis) (a : Analysis), a ∈ (dispatchGroup qe slot g).2 →
      a ∈ g ∧ a.providesIRequestAnalysis = true ∧ qe = true := by
  intro g
  induction g with
  | nil => intro a h; simp [dispatchGroup] at h
  | cons b rest ih =>
    intro a h
    simp only [dispatchGroup] at h
    split at h
    · obtain ⟨hb, hp, hq⟩ := ih a h
      exact ⟨List.mem_cons_of_mem _ hb, hp, hq⟩
    · split at h
      · obtain ⟨hb, hp, hq⟩ := ih a h
        exact ⟨List.mem_cons_of_mem _ hb, hp, hq⟩
      · rename_i hp hq
        rcases List.mem_cons.1 h with rfl | h2
        · refine ⟨List.mem_cons_self _ _, by simpa using hp, by simpa using hq⟩
        · obtain ⟨hb, hp2, hq2⟩ := ih a h2
          exact ⟨List.mem_cons_of_mem _ hb, hp2, hq2⟩

/-- A successfully looked-up group member is in the grouping. -/
theorem mem_groupMembers_of_lookup {arA : List (String × List Analysis)}
    {k : String} {g : List Analysis} (hg : List.lookup k arA = some g)
    {a : Analysis} (ha : a ∈ g) : a ∈ groupMembers arA := by
  have hm := lookup_mem hg
  simp only [groupMembers, List.mem_flatten]
  exact ⟨g, List.mem_map.2 ⟨(k, g), hm, rfl⟩, ha⟩

/-- Every direct action the assignment loop emits adds a grouped
analysis. -/
theorem assignLoop_fst_mem (qe : Bool) (arA : List (String × List Analysis))
    (arF : List (String × Nat)) :
    ∀ (ids : List String) (slots : List Nat) (act : WSAction),
      act ∈ (assignLoop qe arA arF ids slots).1 →
      ∃ a, a ∈ groupMembers arA ∧ ∃ s, act = WSAction.addAnalysis a (some s) := by
  intro ids
  induction ids with
  | nil => intro slots act h; simp [assignLoop] at h
  | cons i rest ih =>
    intro slots act h
    simp only [assignLoop] at h
    rcases List.mem_append.1 h with h | h
    · obtain ⟨a, ha, rfl⟩ := dispatchGroup_fst_mem qe _ _ act h
      refine ⟨a, ?_, _, rfl⟩
      cases hg : List.lookup i arA with
      | none => rw [hg] at ha; simp at ha
      | some g =>
        rw [hg] at ha
        exact mem_groupMembers_of_lookup hg (by simpa using ha)
    · exact ih _ act h

/-- Everything the assignment loop routes to the queue is a grouped
analysis providing `IRequestAnalysis`. -/
theorem assignLoop_snd_mem (qe : Bool) (arA : List (String × List Analysis))
    (arF : List (String × Nat)) :
    ∀ (ids : List String) (slots : List Nat) (a : Analysis),
      a ∈ (assignLoop qe arA arF ids slots).2 →
      a ∈ groupMembers arA ∧ a.providesIRequestAnalysis = true := by
  intro ids
  induction ids with
  | nil => intro slots a h; simp [assignLoop] at h
  | cons i rest ih =>
    intro slots a h
    simp only [assignLoop] at h
    rcases List.mem_append.1 h with h | h
    · obtain ⟨ha, hp, _⟩ := dispatchGroup_snd_mem qe _ _ a h
      refine ⟨?_, hp⟩
      cases hg : List.lookup i arA with
      | none => rw [hg] at ha; simp at ha
      | some g =>
        rw [hg] at ha
        exact mem_groupMembers_of_lookup hg (by simpa using ha)
    · exact ih _ a h

/-- Any analysis mentioned by an action of the assembled output of the
assignment loop is a grouped analysis. -/
theorem assembled_mentions (qe : Bool) (arA : List (String × List Analysis))
    (arF : List (String × Nat)) (ids : List String) (slots : List Nat)
    (act : WSAction) (a : Analysis)
    (hact : act ∈ (assignLoop qe arA arF ids slots).1 ++
      (if (assignLoop qe arA arF ids slots).2.isEmpty then []
       else [WSAction.queueAssign (assignLoop qe arA arF ids slots).2]))
    (hm : mentions act a = true) :
    a ∈ groupMembers arA := by
  rcases List.mem_append.1 hact with h | h
  · obtain ⟨b, hb, s, rfl⟩ := assignLoop_fst_mem qe arA arF ids slots act h
    have hab : a = b := by simpa [mentions] using hm
    exact hab ▸ hb
  · split at h
    · simp at h
    · have hact2 : act = WSAction.queueAssign (assignLoop qe arA arF ids slots).2 := by
        simpa using h
      subst hact2
      have ha : a ∈ (assignLoop qe arA arF ids slots).2 := by
        simpa [mentions] using hm
      exact (assignLoop_snd_mem qe arA arF ids slots a ha).1

/-- Any analysis mentioned by a routine action was a non-queued member
of the catalog result. -/
theorem routine_mentions_source (qe : Bool) (ws : Worksheet) (wst : WorksheetTemplate)
    (ys : List Analysis) (act : WSAction) (a : Analysis)
    (hact : act ∈ apply_worksheet_template_routine_analyses qe ws wst ys)
    (hm : mentions act a = true) :
    a ∈ ys ∧ a.queued = false := by
  simp only [apply_worksheet_template_routine_analyses] at hact
  split at hact
  · simp at hact
  · rcases routineLoop_groupMembers ws wst.hasInstrument wst.hasMethod ys _ a
        (assembled_mentions qe _ _ _ _ act a hact hm) with h1 | h2
    · simp [groupMembers] at h1
    · exact h2

/-- C5: an analysis reported by `is_queued` as claimed by an in-flight
task is skipped by the worksheet-template routine: it is neither added
to the worksheet nor included in the new queue submission. -/
theorem queued_analysis_skipped (qe : Bool) (ws : Worksheet) (wst : WorksheetTemplate)
    (ys : List Analysis) (a : Analysis) (hq : a.queued = true) :
    (apply_worksheet_template_routine_analyses qe ws wst ys).all
      (fun act => !(mentions act a)) = true := by
  rw [List.all_eq_true]
  intro act hact
  by_contra hm
  have hm2 : mentions act a = true := by simpa using hm
  obtain ⟨_, hq2⟩ := routine_mentions_source qe ws wst ys act a hact hm2
  rw [hq] at hq2
  cases hq2

/-- Witness for C5: a queued analysis submitted alongside a fresh one is
mentioned by no action. -/
theorem queued_analysis_skipped_witness :
    anInQ.queued = true ∧
    (apply_worksheet_template_routine_analyses true wsSample wstSample [anInQ, anReq]).all
      (fun act => !(mentions act anInQ)) = true :=
  ⟨rfl, queued_analysis_skipped true wsSample wstSample [anInQ, anReq] anInQ rfl⟩


/-- Analyses without `IRequestAnalysis` always take the direct branch of
the `addAnalyses` loop. -/
theorem addAnalysesLoop_direct (qe : Bool) :
    ∀ (xs : List Analysis) (a : Analysis), a ∈ xs →
      a.providesIRequestAnalysis = false →
      WSAction.addAnalysis a none ∈ (addAnalysesLoop qe xs).1 := by
  intro xs
  induction xs with
  | nil => intro a h _; cases h
  | cons b rest ih =>
    intro a h hp
    simp only [addAnalysesLoop]
    rcases List.mem_cons.1 h with rfl | h2
    · split
      · exact List.mem_cons_self _ _
      · split
        · exact List.mem_cons_self _ _
        · rename_i hq hpr
          exfalso
          simp at hpr
          rw [hp] at hpr
          cases hpr
    · split
      · exact List.mem_cons_of_mem _ (ih a h2 hp)
      · split
        · exact List.mem_cons_of_mem _ (ih a h2 hp)
        · exact ih a h2 hp

/-- Everything the `addAnalyses` loop routes to the queue provides
`IRequestAnalysis`. -/
theorem addAnalysesLoop_snd_provides (qe : Bool) :
    ∀ (xs : List Analysis) (a : Analysis), a ∈ (addAnalysesLoop qe xs).2 →
      a.providesIRequestAnalysis = true := by
  intro xs
  induction xs with
  | nil => intro a h; simp [addAnalysesLoop] at h
  | cons b rest ih =>
    intro a h
    simp only [addAnalysesLoop] at h
    split at h
    · exact ih a h
    · split at h
      · exact ih a h
      · rename_i hq hpr
        rcases List.mem_cons.1 h with rfl | h2
        · simpa using hpr
        · exact ih a h2

/-- Every direct entry of the `addAnalyses` loop is an `addAnalysis`. -/
theorem addAnalysesLoop_fst_direct (qe : Bool) (xs : List Analysis) :
    ∀ act ∈ (addAnalysesLoop qe xs).1, isDirectAdd act = true := by
  induction xs with
  | nil => intro act h; simp [addAnalysesLoop] at h
  | cons b rest ih =>
    intro act h
    simp only [addAnalysesLoop] at h
    split at h
    · rcases List.mem_cons.1 h with rfl | h2
      · rfl
      · exact ih act h2
    · split at h
      · rcases List.mem_cons.1 h with rfl | h2
        · rfl
        · exact ih act h2
      · exact ih act h

/-- Unfolding `queuedItems` over a leading action. -/
theorem queuedItems_cons (act : WSAction) (rest : List WSAction) :
    queuedItems (act :: rest)
      = (match act with
         | WSAction.queueAssign l => l
         | _ => []) ++ queuedItems rest := by
  cases act <;> simp [queuedItems]

/-- `queuedItems` distributes over concatenation. -/
theorem queuedItems_append (l1 l2 : List WSAction) :
    queuedItems (l1 ++ l2) = queuedItems l1 ++ queuedItems l2 := by
  induction l1 with
  | nil => rfl
  | cons act rest ih =>
    rw [List.cons_append, queuedItems_cons, queuedItems_cons, ih, List.append_assoc]

/-- A trace of direct adds submits nothing to the queue. -/
theorem queuedItems_all_direct : ∀ (l : List WSAction),
    (∀ act ∈ l, isDirectAdd act = true) → queuedItems l = [] := by
  intro l
  induction l with
  | nil => intro _; rfl
  | cons act rest ih =>
    intro h
    rw [queuedItems_cons]
    have h1 := h act (List.mem_cons_self _ _)
    cases act with
    | addAnalysis a s => simpa using ih (fun b hb => h b (List.mem_cons_of_mem _ hb))
    | queueAssign l2 => simp [isDirectAdd] at h1

/-- The items of any `queueAssign` action of a trace are queued items of
the trace. -/
theorem mem_queuedItems_of_mem (acts : List WSAction) (l : List Analysis)
    (hact : WSAction.queueAssign l ∈ acts) (a : Analysis) (ha : a ∈ l) :
    a ∈ queuedItems acts := by
  induction acts with
  | nil => cases hact
  | cons act rest ih =>
    rw [queuedItems_cons]
    rcases List.mem_cons.1 hact with rfl | h2
    · exact List.mem_append_left _ ha
    · exact List.mem_append_right _ (ih h2)

/-- What `addAnalyses` hands to `queue_assign_analyses` is exactly the
loop's queue accumulator. -/
theorem queuedItems_addAnalyses (qe : Bool) (xs : List Analysis) :
    queuedItems (addAnalyses qe xs) = (addAnalysesLoop qe xs).2 := by
  simp only [addAnalyses]
  rw [queuedItems_append,
      queuedItems_all_direct _ (addAnalysesLoop_fst_direct qe xs)]
  split
  · rename_i he
    simp only [List.nil_append]
    exact (List.isEmpty_iff.1 he).symm
  · rw [List.nil_append, queuedItems_cons]
    simp [queuedItems]

/-- Every direct action of the assignment loop is an `addAnalysis`. -/
theorem assignLoop_fst_direct (qe : Bool) (arA : List (String × List Analysis))
    (arF : List (String × Nat)) (ids : List String) (slots : List Nat) :
    ∀ act ∈ (assignLoop qe arA arF ids slots).1, isDirectAdd act = true := by
  intro act h
  obtain ⟨a, _, s, rfl⟩ := assignLoop_fst_mem qe arA arF ids slots act h
  rfl

/-- Queue submissions in the assembled assignment output consist of
`IRequestAnalysis` providers only. -/
theorem assembled_queuedItems_provides (qe : Bool)
    (arA : List (String × List Analysis)) (arF : List (String × Nat))
    (ids : List String) (slots : List Nat) :
    (queuedItems ((assignLoop qe arA arF ids slots).1 ++
      (if (assignLoop qe arA arF ids slots).2.isEmpty then []
       else [WSAction.queueAssign (assignLoop qe arA arF ids slots).2]))).all
      (fun b => b.providesIRequestAnalysis) = true := by
  rw [queuedItems_append,
      queuedItems_all_direct _ (assignLoop_fst_direct qe arA arF ids slots)]
  rw [List.all_eq_true]
  intro b hb
  rw [List.nil_append] at hb
  split at hb
  · simp [queuedItems] at hb
  · rw [queuedItems_cons] at hb
    simp only [queuedItems, List.foldr_nil, List.append_nil] at hb
    exact (assignLoop_snd_mem qe arA arF ids slots b hb).2

/-- The routine's queue submission consists of `IRequestAnalysis`
providers only. -/
theorem queuedItems_routine_provides (qe : Bool) (ws : Worksheet)
    (wst : WorksheetTemplate) (ys : List Analysis) :
    (queuedItems (apply_worksheet_template_routine_analyses qe ws wst ys)).all
      (fun b => b.providesIRequestAnalysis) = true := by
  simp only [apply_worksheet_template_routine_analyses]
  split
  · rfl
  · exact assembled_queuedItems_provides qe _ _ _ _

/-- C9: analyses that do not provide `IRequestAnalysis` (reference
analyses: controls and blanks) are added synchronously via the direct
`addAnalysis` path by both entry points even when the queue is enabled;
only `IRequestAnalysis` providers are ever placed in the queue
submission. -/
theorem reference_analyses_direct_path (qe : Bool) (ws : Worksheet)
    (wst : WorksheetTemplate) (xs ys : List Analysis) (a : Analysis)
    (hp : a.providesIRequestAnalysis = false) :
    (a ∈ xs → WSAction.addAnalysis a none ∈ addAnalyses qe xs) ∧
    (queuedItems (addAnalyses qe xs)).all (fun b => b.providesIRequestAnalysis) = true ∧
    (queuedItems (apply_worksheet_template_routine_analyses qe ws wst ys)).all
        (fun b => b.providesIRequestAnalysis) = true ∧
    (apply_worksheet_template_routine_analyses qe ws wst ys).all
        (fun act => !(mentions act a) || isDirectAdd act) = true := by
  refine ⟨fun hx => ?_, ?_, queuedItems_routine_provides qe ws wst ys, ?_⟩
  · simp only [addAnalyses]
    exact List.mem_append_left _ (addAnalysesLoop_direct qe xs a hx hp)
  · rw [queuedItems_addAnalyses, List.all_eq_true]
    intro b hb
    exact addAnalysesLoop_snd_provides qe xs b hb
  · rw [List.all_eq_true]
    intro act hact
    cases act with
    | addAnalysis b s => simp [mentions, isDirectAdd]
    | queueAssign l =>
      simp only [isDirectAdd, Bool.or_false]
      by_contra hm
      have ha : a ∈ l := by
        simp [mentions] at hm
        exact hm
      have haq : a ∈ queuedItems (apply_worksheet_template_routine_analyses qe ws wst ys) :=
        mem_queuedItems_of_mem _ l hact a ha
      have hall := queuedItems_routine_provides qe ws wst ys
      rw [List.all_eq_true] at hall
      have := hall a haq
      rw [hp] at this
      cases this

/-- Witness for C9 at concrete inputs: a reference analysis is added
directly with the queue enabled, and queue submissions contain only
`IRequestAnalysis` providers. -/
theorem reference_analyses_direct_path_witness :
    WSAction.addAnalysis anRef none ∈ addAnalyses true [anReq, anRef] ∧
    (queuedItems (addAnalyses true [anReq, anRef])).all
        (fun b => b.providesIRequestAnalysis) = true ∧
    (queuedItems (apply_worksheet_template_routine_analyses true wsSample wstSample
        [anReq, anRef])).all (fun b => b.providesIRequestAnalysis) = true ∧
    (apply_worksheet_template_routine_analyses true wsSample wstSample [anReq, anRef]).all
        (fun act => !(mentions act anRef) || isDirectAdd act) = true := by
  have h := reference_analyses_direct_path true wsSample wstSample
    [anReq, anRef] [anReq, anRef] anRef rfl
  exact ⟨h.1 (by decide), h.2.1, h.2.2.1, h.2.2.2⟩


/-- A legal lifecycle transition always starts from an active status. -/
theorem legalTransition_source_active (src dst : TaskStatus)
    (h : legalTransition src dst = true) : src.isActive = true := by
  cases src <;> cases dst <;> simp_all [legalTransition, TaskStatus.isActive]

/-- An empty dedup view means zero active tasks on the target. -/
theorem findActiveTask_none_count (s : QueueState) (tgt : String)
    (h : findActiveTask s tgt = none) : activeCount s tgt = 0 := by
  unfold findActiveTask at h
  unfold activeCount
  rw [List.length_eq_zero, List.filter_eq_nil_iff]
  intro t ht
  have h2 := List.find?_eq_none.1 h t ht
  simpa using h2

/-- Appending a task changes a target's active count by the new task's
contribution only. -/
theorem activeCount_append_one (tasks : List Task) (nid : Nat) (t : Task) (tgt : String) :
    activeCount ⟨tasks ++ [t], nid⟩ tgt
      = activeCount ⟨tasks, nid⟩ tgt
        + (if t.status.isActive && t.target == tgt then 1 else 0) := by
  unfold activeCount
  rw [List.filter_append, List.length_append]
  congr 1
  split <;> rename_i hc <;> simp [List.filter, hc]

/-- A payload-only rewrite of the task list preserves active counts. -/
theorem activeCount_map_payload (tasks : List Task) (nid : Nat) (f : Task → Task)
    (hf : ∀ t, (f t).status = t.status ∧ (f t).target = t.target) (tgt : String) :
    activeCount ⟨tasks.map f, nid⟩ tgt = activeCount ⟨tasks, nid⟩ tgt := by
  unfold activeCount
  rw [List.filter_map, List.length_map]
  congr 1
  apply List.filter_congr
  intro t _
  simp only [Function.comp_apply]
  rw [(hf t).1, (hf t).2]

/-- Lifecycle transitions never increase a target's active count. -/
theorem activeCount_applyTransition_le (s : QueueState) (tid : Nat) (dst : TaskStatus)
    (tgt : String) :
    activeCount (applyTransition s tid dst) tgt ≤ activeCount s tgt := by
  unfold applyTransition activeCount
  rw [← List.countP_eq_length_filter, ← List.countP_eq_length_filter, List.countP_map]
  apply List.countP_mono_left
  intro t _ h
  simp only [Function.comp_apply] at h
  by_cases hc : (t.id == tid && legalTransition t.status dst) = true
  · rw [if_pos hc] at h
    simp only [Bool.and_eq_true] at h hc ⊢
    exact ⟨legalTransition_source_active t.status dst hc.2, h.2⟩
  · rwa [if_neg hc] at h

/-- C1: the dedup invariant (at most one active task per target) is
preserved by `submit` and by every lifecycle transition; a submission
against a locked target is merged into the lock holder's payload or
rejected with a synchronous `DuplicateTargetError`, never silently
dropped. -/
theorem dedup_submit_invariant (policy : Bool) (s : QueueState) (name target : String)
    (items : List Nat) (tid : Nat) (dst : TaskStatus) (hinv : dedupInvariant s) :
    dedupInvariant (submit policy s name target items).2 ∧
    dedupInvariant (applyTransition s tid dst) ∧
    (match (submit policy s name target items).1 with
     | SubmitResult.created i =>
         findActiveTask s target = none ∧
         (⟨i, name, target, items, TaskStatus.queued⟩ : Task)
            ∈ (submit policy s name target items).2.tasks
     | SubmitResult.merged i =>
         ∃ t2 ∈ (submit policy s name target items).2.tasks,
           t2.id = i ∧ ∃ pre, t2.payload = pre ++ items
     | SubmitResult.duplicateTargetError =>
         findActiveTask s target ≠ none ∧
         (submit policy s name target items).2 = s) := by
  refine ⟨?_, ?_, ?_⟩
  · -- submit preserves the invariant
    intro tgt
    cases hfind : findActiveTask s target with
    | some t =>
      cases policy with
      | false =>
        simp only [submit, hfind]
        exact hinv tgt
      | true =>
        simp only [submit, hfind, if_true]
        rw [activeCount_map_payload]
        · exact hinv tgt
        · intro u
          by_cases hu : (u.id == t.id) = true <;> simp [hu]
    | none =>
      simp only [submit, hfind]
      rw [activeCount_append_one]
      by_cases htg : target = tgt
      · subst htg
        rw [show activeCount ⟨s.tasks, s.nextId + 1⟩ target = activeCount s target from rfl,
            findActiveTask_none_count s target hfind]
        simp [TaskStatus.isActive]
      · have hb : (target == tgt) = false := beq_false_of_ne htg
        simp only [hb, Bool.and_false, if_false, Nat.add_zero]
        exact hinv tgt
  · -- transitions preserve the invariant
    intro tgt
    exact Nat.le_trans (activeCount_applyTransition_le s tid dst tgt) (hinv tgt)
  · -- the submission outcome
    cases hfind : findActiveTask s target with
    | some t =>
      cases policy with
      | false =>
        simp only [submit, hfind]
        exact ⟨by simp [hfind], rfl⟩
      | true =>
        simp only [submit, hfind, if_true]
        have ht : t ∈ s.tasks := List.mem_of_find?_eq_some hfind
        refine ⟨(fun u =>
            if u.id == t.id then { u with payload := u.payload ++ items } else u) t,
          List.mem_map_of_mem _ ht, ?_, ?_⟩
        · simp
        · exact ⟨t.payload, by simp⟩
    | none =>
      simp [submit, hfind]


/-- Witness for C1: submitting into an empty store and taking one legal
transition both preserve the dedup invariant. -/
theorem dedup_submit_invariant_witness :
    dedupInvariant (submit true ⟨[], 0⟩ "task_assign_analyses" "WS-1" [1, 2]).2 ∧
    dedupInvariant (applyTransition ⟨[], 0⟩ 0 TaskStatus.running) := by
  have h := dedup_submit_invariant true ⟨[], 0⟩ "task_assign_analyses" "WS-1" [1, 2] 0
    TaskStatus.running (fun _ => Nat.zero_le 1)
  exact ⟨h.1, h.2.1⟩

end SenaiteQueue
